import Mathlib

/-!
Verification of the incremental build-caching mechanism of `bootstrap.py`
(classes `Runnable`, `RunInfoStatus`, `Executor`) and of the toy list
functions of `tests/test_lists.py`.

The filesystem is modelled as an association list from path strings to byte
contents (a present entry is a readable file, an absent one is a missing or
unreadable file).  The persisted run-info JSON files are modelled as a second
association list from full file paths to parsed cache entries, where a
`corrupt` entry stands for a stored file whose JSON cannot be parsed.
`hashlib.sha256(...).hexdigest()` is embedded as a full executable SHA-256
over byte lists, producing the 64-character lowercase hex digest.
-/

namespace Bootstrap

/-- One 32-bit modular addition, as performed by SHA-256 on words. -/
def addW (x y : Nat) : Nat := (x + y) % 4294967296

/-- 32-bit right rotation used by the SHA-256 sigma functions. -/
def rotr (n x : Nat) : Nat := ((x >>> n) ||| (x <<< (32 - n))) % 4294967296

/-- SHA-256 big sigma-0. -/
def bigSigma0 (x : Nat) : Nat := rotr 2 x ^^^ rotr 13 x ^^^ rotr 22 x

/-- SHA-256 big sigma-1. -/
def bigSigma1 (x : Nat) : Nat := rotr 6 x ^^^ rotr 11 x ^^^ rotr 25 x

/-- SHA-256 small sigma-0 (message schedule). -/
def smallSigma0 (x : Nat) : Nat := rotr 7 x ^^^ rotr 18 x ^^^ (x >>> 3)

/-- SHA-256 small sigma-1 (message schedule). -/
def smallSigma1 (x : Nat) : Nat := rotr 17 x ^^^ rotr 19 x ^^^ (x >>> 10)

/-- The eight 32-bit working variables of the SHA-256 compression function. -/
structure Hash8 where
  a : Nat
  b : Nat
  c : Nat
  d : Nat
  e : Nat
  f : Nat
  g : Nat
  h : Nat
deriving DecidableEq

/-- SHA-256 initial hash value. -/
def sha256Init : Hash8 :=
  ⟨1779033703, 3144134277, 1013904242, 2773480762,
   1359893119, 2600822924, 528734635, 1541459225⟩

/-- The 64 SHA-256 round constants. -/
def sha256RoundK : List Nat :=
  [1116352408, 1899447441, 3049323471, 3921009573, 961987163, 1508970993,
   2453635748, 2870763221, 3624381080, 310598401, 607225278, 1426881987,
   1925078388, 2162078206, 2614888103, 3248222580, 3835390401, 4022224774,
   264347078, 604807628, 770255983, 1249150122, 1555081692, 1996064986,
   2554220882, 2821834349, 2952996808, 3210313671, 3336571891, 3584528711,
   113926993, 338241895, 666307205, 773529912, 1294757372, 1396182291,
   1695183700, 1986661051, 2177026350, 2456956037, 2730485921, 2820302411,
   3259730800, 3345764771, 3516065817, 3600352804, 4094571909, 275423344,
   430227734, 506948616, 659060556, 883997877, 958139571, 1322822218,
   1537002063, 1747873779, 1955562222, 2024104815, 2227730452, 2361852424,
   2428436474, 2756734187, 3204031479, 3329325298]

/-- One round of the SHA-256 compression function on the working variables. -/
def compressStep (s : Hash8) (kw : Nat × Nat) : Hash8 :=
  let s1 := bigSigma1 s.e
  let ch := (s.e &&& s.f) ^^^ ((s.e ^^^ 0xffffffff) &&& s.g)
  let t1 := (s.h + s1 + ch + kw.1 + kw.2) % 4294967296
  let s0 := bigSigma0 s.a
  let mj := (s.a &&& s.b) ^^^ (s.a &&& s.c) ^^^ (s.b &&& s.c)
  let t2 := (s0 + mj) % 4294967296
  ⟨(t1 + t2) % 4294967296, s.a, s.b, s.c, (s.d + t1) % 4294967296, s.e, s.f, s.g⟩

/-- Group a byte list into big-endian 32-bit words. -/
def toWords : List Nat → List Nat
  | a :: b :: c :: d :: rest => (((a * 256 + b) * 256 + c) * 256 + d) :: toWords rest
  | _ => []

/-- Extend the 16-word message schedule by `fuel` additional words. -/
def extendW : List Nat → Nat → List Nat
  | w, 0 => w
  | w, fuel + 1 =>
    let n := w.length
    let nw := (w.getD (n - 16) 0 + smallSigma0 (w.getD (n - 15) 0) +
               w.getD (n - 7) 0 + smallSigma1 (w.getD (n - 2) 0)) % 4294967296
    extendW (w ++ [nw]) fuel

/-- Big-endian byte encoding of `n` on `k` bytes. -/
def bytesBE : Nat → Nat → List Nat
  | 0, _ => []
  | k + 1, n => bytesBE k (n / 256) ++ [n % 256]

/-- SHA-256 message padding: append `0x80`, zero bytes up to 56 mod 64, then
the 64-bit big-endian bit length. -/
def padMessage (msg : List Nat) : List Nat :=
  let len := msg.length
  let z := (64 + 56 - ((len + 1) % 64)) % 64
  msg ++ [128] ++ List.replicate z 0 ++ bytesBE 8 (len * 8)

/-- Process one 64-byte chunk, updating the running hash value. -/
def processChunk (hs : Hash8) (chunk : List Nat) : Hash8 :=
  let ws := extendW (toWords chunk) 48
  let fin := (sha256RoundK.zip ws).foldl compressStep hs
  ⟨addW hs.a fin.a, addW hs.b fin.b, addW hs.c fin.c, addW hs.d fin.d,
   addW hs.e fin.e, addW hs.f fin.f, addW hs.g fin.g, addW hs.h fin.h⟩

/-- Split a byte list into consecutive 64-byte chunks (fuelled recursion). -/
def chunksAux : Nat → List Nat → List (List Nat)
  | 0, _ => []
  | _, [] => []
  | fuel + 1, l => l.take 64 :: chunksAux fuel (l.drop 64)

/-- The eight 32-bit words of the SHA-256 digest of a byte list. -/
def sha256words (msg : List Nat) : Hash8 :=
  let padded := padMessage msg
  (chunksAux padded.length padded).foldl processChunk sha256Init

/-- Lowercase hex digit for a value below 16. -/
def hexDigit (n : Nat) : Char :=
  Char.ofNat (if n < 10 then 48 + n else 87 + n)

/-- Fixed-width 8-character lowercase hex rendering of a 32-bit word. -/
def toHex8 (n : Nat) : List Char :=
  (List.range 8).map (fun i => hexDigit ((n >>> (28 - 4 * i)) % 16))

/-- `hashlib.sha256(bytes).hexdigest()`: the 64-character lowercase hex
digest of a byte list. -/
def sha256hex (msg : List Nat) : String :=
  let d := sha256words msg
  String.mk (List.flatten ([d.a, d.b, d.c, d.d, d.e, d.f, d.g, d.h].map toHex8))

/-- Lookup in an association list keyed by path strings (the first binding
for a key wins, as in a map). -/
def lookupA {α : Type} : List (String × α) → String → Option α
  | [], _ => none
  | (k, v) :: rest, p => if k = p then some v else lookupA rest p

/-- Replace the binding for a key, or append it; models writing one file of
a directory wholesale. -/
def setAssoc {α : Type} : List (String × α) → String → α → List (String × α)
  | [], k, v => [(k, v)]
  | (k', v') :: rest, k, v =>
    if k' = k then (k, v) :: rest else (k', v') :: setAssoc rest k v

/-- A parsed run record: the JSON object with exactly the two keys "inputs"
and "outputs", each an insertion-ordered map from path to hex hash. -/
structure RunInfo where
  inputs : List (String × String)
  outputs : List (String × String)
deriving DecidableEq

/-- A persisted run-info file: either parsable JSON holding a `RunInfo`, or
contents that `json.load` fails on. -/
inductive CacheEntry : Type
  | valid (info : RunInfo)
  | corrupt
deriving DecidableEq

/-- The whole mutable world the executor touches: content files and the
run-info files under the cache directory (keyed by full path). -/
structure Sys where
  fs : List (String × List Nat)
  cache : List (String × CacheEntry)
deriving DecidableEq

/-- The exceptions the mechanism can raise: `OSError` while opening a file
for hashing, and `json.JSONDecodeError` from `json.load`. -/
inductive Err : Type
  | fileAccess (path : String)
  | corruptRecord (path : String)
deriving DecidableEq

/-- `Runnable`: a name, declared input and output paths, and the action.
The action may rewrite the content files and returns an exit code. -/
structure Runnable where
  name : String
  inputs : List String
  outputs : List String
  run : List (String × List Nat) → List (String × List Nat) × Int

/-- `RunInfoStatus` with its `should_run` flag and message, as in the enum. -/
inductive RunInfoStatus : Type
  | MATCH
  | NO_INFO
  | FILE_NOT_FOUND
  | FILE_CHANGED
deriving DecidableEq

/-- The `should_run` flag of each `RunInfoStatus` member. -/
def RunInfoStatus.should_run : RunInfoStatus → Bool
  | .MATCH => false
  | .NO_INFO => true
  | .FILE_NOT_FOUND => true
  | .FILE_CHANGED => true

/-- The human-readable message of each `RunInfoStatus` member. -/
def RunInfoStatus.message : RunInfoStatus → String
  | .MATCH => "Nothing changed. Previous execution info matches."
  | .NO_INFO => "No previous execution info found."
  | .FILE_NOT_FOUND => "File not found."
  | .FILE_CHANGED => "File has changed."

/-- Observable events of one `execute` call: the action being invoked (with
its exit code), the record being written, and the skip log line. -/
inductive Event : Type
  | ranAction (name : String) (exitCode : Int)
  | savedRecord (name : String)
  | skipped (name : String)
deriving DecidableEq

/-- `Executor.RUN_INFO_FILE_EXTENSION`. -/
def RUN_INFO_FILE_EXTENSION : String := ".deps.json"

/-- `Executor.get_runnable_run_info_file`: `cache_dir / f"{name}{ext}"`. -/
def get_runnable_run_info_file (cacheDir : String) (name : String) : String :=
  cacheDir ++ "/" ++ name ++ RUN_INFO_FILE_EXTENSION

/-- `Executor.get_file_hash`: open the file, read its bytes, return the
SHA-256 hex digest; raises `OSError` when the path cannot be read. -/
def get_file_hash (fs : List (String × List Nat)) (path : String) : Except Err String :=
  match lookupA fs path with
  | none => .error (.fileAccess path)
  | some bytes => .ok (sha256hex bytes)

/-- Hash a list of declared paths in order, keeping the path with its hash;
the first unreadable path raises (the dict comprehensions of
`store_run_info`). -/
def hashPaths (fs : List (String × List Nat)) : List String → Except Err (List (String × String))
  | [] => .ok []
  | p :: ps =>
    match get_file_hash fs p with
    | .error e => .error e
    | .ok h =>
      match hashPaths fs ps with
      | .error e => .error e
      | .ok rest => .ok ((p, h) :: rest)

/-- `Executor.store_run_info`: hash the currently declared inputs, then the
currently declared outputs, and write the record wholesale at
`get_runnable_run_info_file` (the `mkdir(parents=True, exist_ok=True)` and
the `open("w")` are modelled as an always-succeeding whole-file write). -/
def store_run_info (st : Sys) (cacheDir : String) (r : Runnable) : Except Err Sys :=
  match hashPaths st.fs r.inputs with
  | .error e => .error e
  | .ok ins =>
    match hashPaths st.fs r.outputs with
    | .error e => .error e
    | .ok outs =>
      .ok { st with
            cache := setAssoc st.cache (get_runnable_run_info_file cacheDir r.name)
                       (CacheEntry.valid ⟨ins, outs⟩) }

/-- The inner double loop of `previous_run_info_matches` over the recorded
`(path, hash)` items: `FILE_NOT_FOUND` on the first recorded path missing
from disk, `FILE_CHANGED` on the first whose recomputed hash differs, and
`none` (fall through to `MATCH`) when every item checks out. -/
def checkEntries (fs : List (String × List Nat)) : List (String × String) → Option RunInfoStatus
  | [] => none
  | (p, prevHash) :: rest =>
    match lookupA fs p with
    | none => some .FILE_NOT_FOUND
    | some bytes =>
      if sha256hex bytes ≠ prevHash then some .FILE_CHANGED
      else checkEntries fs rest

/-- `Executor.previous_run_info_matches`: `NO_INFO` when the run-info file
does not exist; `json.load` raising on an unparsable file; otherwise the
double loop over the recorded inputs then outputs. -/
def previous_run_info_matches (st : Sys) (cacheDir : String) (r : Runnable) :
    Except Err RunInfoStatus :=
  let p := get_runnable_run_info_file cacheDir r.name
  match lookupA st.cache p with
  | none => .ok .NO_INFO
  | some .corrupt => .error (.corruptRecord p)
  | some (.valid info) =>
    match checkEntries st.fs (info.inputs ++ info.outputs) with
    | some s => .ok s
    | none => .ok .MATCH

/-- `Executor.execute`: evaluate the previous run info; when it says the
runnable should run, invoke the action, store fresh run info, and return the
action's exit code; otherwise skip and return 0.  The event list records
which of the logged branches was taken and whether the action ran. -/
def execute (st : Sys) (cacheDir : String) (r : Runnable) :
    Except Err (Sys × Int × List Event) :=
  match previous_run_info_matches st cacheDir r with
  | .error e => .error e
  | .ok status =>
    if status.should_run then
      let res := r.run st.fs
      match store_run_info { st with fs := res.1 } cacheDir r with
      | .error e => .error e
      | .ok st2 => .ok (st2, res.2, [.ranAction r.name res.2, .savedRecord r.name])
    else
      .ok (st, 0, [.skipped r.name])

/-- A recorded `(path, hash)` item is intact: the path is readable on disk
and its recomputed digest equals the recorded one. -/
def entryOk (fs : List (String × List Nat)) (e : String × String) : Prop :=
  (lookupA fs e.1).map sha256hex = some e.2

instance (fs : List (String × List Nat)) (e : String × String) : Decidable (entryOk fs e) := by
  unfold entryOk
  infer_instance

/-- Concrete content files used to exercise the definitions. -/
def sampleFs : List (String × List Nat) := [("a.txt", [49]), ("b.txt", [50])]

/-- Concrete run record for `sampleFs`: it records the current hashes of
`a.txt` as input and `b.txt` as output. -/
def sampleInfo : RunInfo :=
  ⟨[("a.txt", sha256hex [49])], [("b.txt", sha256hex [50])]⟩

/-- Concrete runnable named "unit" whose action leaves the files unchanged
and exits with code 7. -/
def sampleRun : Runnable := ⟨"unit", ["a.txt"], ["b.txt"], fun fs => (fs, 7)⟩

/-- Concrete runnable with a changed declared input list (a new input
`c.txt` was added) but the same name and a different action. -/
def sampleRunGrown : Runnable :=
  ⟨"unit", ["a.txt", "c.txt"], ["b.txt"], fun fs => (fs, 3)⟩

/-- World in which `sampleRun` has already run: its record is persisted. -/
def sampleSys : Sys := ⟨sampleFs, [("cache/unit.deps.json", CacheEntry.valid sampleInfo)]⟩

/-- World in which `sampleRun` has never run: no record is persisted. -/
def sampleSysFresh : Sys := ⟨sampleFs, []⟩

/-- World whose persisted record for "unit" is unparsable JSON. -/
def sampleSysCorrupt : Sys := ⟨sampleFs, [("cache/unit.deps.json", CacheEntry.corrupt)]⟩

/-- A second, unrelated filesystem holding a differently named file with
the same byte contents as `a.txt` of `sampleFs`. -/
def sampleFsOther : List (String × List Nat) := [("z.txt", [49])]

end Bootstrap

namespace TestLists

/-- Step of the `calculate_max` loop: `if biggest < number: biggest=number`. -/
def maxStep (biggest number : Int) : Int :=
  if biggest < number then number else biggest

/-- Step of the `calculate_min` loop: `if smallest > number: smallest=number`. -/
def minStep (smallest number : Int) : Int :=
  if smallest > number then number else smallest

/-- `calculate_max`: start from `numbers[0]` (an `IndexError`, modelled as
`none`, on the empty list) and fold the comparison loop over the whole
list. -/
def calculate_max : List Int → Option Int
  | [] => none
  | b :: rest => some ((b :: rest).foldl maxStep b)

/-- `calculate_min`: start from `numbers[0]` (an `IndexError`, modelled as
`none`, on the empty list) and fold the comparison loop over the whole
list. -/
def calculate_min : List Int → Option Int
  | [] => none
  | b :: rest => some ((b :: rest).foldl minStep b)

/-- `calculate_average`: accumulate the sum and the element count by one
pass, then divide.  Division by a zero count (`ZeroDivisionError`, on the
empty list) is modelled as `none`; Python's float division is idealised as
exact rational division. -/
def calculate_average (numbers : List Int) : Option Rat :=
  let s : Int := numbers.foldl (fun acc number => acc + number) 0
  let k : Nat := numbers.foldl (fun acc _ => acc + 1) 0
  if k = 0 then none else some ((s : Rat) / (k : Rat))

end TestLists

namespace Bootstrap

/-- Sanity check against the FIPS 180-4 test vector for the empty message. -/
theorem sha256hex_empty :
    sha256hex [] = "e3b0c44298fc1c149afbf4c8996fb92427ae41e4649b934ca495991b7852b855" := by
  rfl

/-- Sanity check against the FIPS 180-4 test vector for "abc". -/
theorem sha256hex_abc :
    sha256hex [97, 98, 99] = "ba7816bf8f01cfea414140de5dae2223b00361a396177a9cb410ff61f20015ad" := by
  rfl

/-- A fixed-width hex rendering always has 8 characters. -/
theorem toHex8_length (n : Nat) : (toHex8 n).length = 8 := by
  simp [toHex8]

/-- The hex digest always has 64 characters, i.e. it encodes 256 bits. -/
theorem sha256hex_length (msg : List Nat) : (sha256hex msg).length = 64 := by
  simp [sha256hex, String.length, toHex8_length]

/-- Updating a key makes it readable back. -/
theorem lookupA_setAssoc_self {α : Type} (m : List (String × α)) (k : String) (v : α) :
    lookupA (setAssoc m k v) k = some v := by
  induction m with
  | nil => simp [setAssoc, lookupA]
  | cons kv rest ih =>
    obtain ⟨k', v'⟩ := kv
    by_cases hk : k' = k
    · simp [setAssoc, hk, lookupA]
    · simp [setAssoc, hk, lookupA, ih]

/-- Updating a key leaves every other key's binding unchanged. -/
theorem lookupA_setAssoc_ne {α : Type} (m : List (String × α)) (k k' : String) (v : α)
    (h : k' ≠ k) : lookupA (setAssoc m k v) k' = lookupA m k' := by
  have hk : k ≠ k' := Ne.symm h
  induction m with
  | nil => simp [setAssoc, lookupA, hk]
  | cons kv rest ih =>
    obtain ⟨k0, v0⟩ := kv
    by_cases h0 : k0 = k
    · subst h0
      simp [setAssoc, lookupA, hk]
    · simp [setAssoc, h0, lookupA, ih]

/-- A successful `get_file_hash` is the digest of the bytes on disk. -/
theorem get_file_hash_ok (fs : List (String × List Nat)) (p : String) (h : String)
    (hg : get_file_hash fs p = .ok h) : (lookupA fs p).map sha256hex = some h := by
  unfold get_file_hash at hg
  rcases hb : lookupA fs p with _ | bytes
  · rw [hb] at hg
    exact absurd hg (by simp)
  · rw [hb] at hg
    simp_all

/-- A successful `hashPaths` pass hashes exactly the given paths, in order,
and every produced item is intact on the filesystem it was hashed from. -/
theorem hashPaths_ok (fs : List (String × List Nat)) :
    ∀ (ps : List String) (l : List (String × String)), hashPaths fs ps = .ok l →
      l.map Prod.fst = ps ∧ ∀ e ∈ l, entryOk fs e := by
  intro ps
  induction ps with
  | nil =>
    intro l h
    simp [hashPaths] at h
    subst h
    simp
  | cons p ps ih =>
    intro l h
    simp only [hashPaths] at h
    rcases hg : get_file_hash fs p with e | hh
    · rw [hg] at h
      exact absurd h (by simp)
    · rw [hg] at h
      rcases hr : hashPaths fs ps with e | rest
      · rw [hr] at h
        exact absurd h (by simp)
      · rw [hr] at h
        simp only [Except.ok.injEq] at h
        obtain ⟨h1, h2⟩ := ih rest hr
        subst h
        refine ⟨by simp [h1], ?_⟩
        intro e he
        rcases List.mem_cons.mp he with he | he
        · subst he
          simpa [entryOk] using get_file_hash_ok fs p hh hg
        · exact h2 e he

/-- A failing `hashPaths` pass fails with a file-access error on one of the
given paths, and that path is indeed unreadable. -/
theorem hashPaths_error (fs : List (String × List Nat)) :
    ∀ (ps : List String) (e : Err), hashPaths fs ps = .error e →
      ∃ p, p ∈ ps ∧ e = Err.fileAccess p ∧ lookupA fs p = none := by
  intro ps
  induction ps with
  | nil =>
    intro e h
    simp [hashPaths] at h
  | cons p ps ih =>
    intro e h
    simp only [hashPaths] at h
    rcases hg : get_file_hash fs p with e' | hh
    · rw [hg] at h
      simp only [Except.error.injEq] at h
      subst h
      unfold get_file_hash at hg
      rcases hb : lookupA fs p with _ | bytes
      · rw [hb] at hg
        simp only [Except.error.injEq] at hg
        exact ⟨p, by simp, hg.symm, hb⟩
      · rw [hb] at hg
        exact absurd hg (by simp)
    · rw [hg] at h
      rcases hr : hashPaths fs ps with e' | rest
      · rw [hr] at h
        simp only [Except.error.injEq] at h
        subst h
        obtain ⟨q, hq1, hq2, hq3⟩ := ih e' hr
        exact ⟨q, by simp [hq1], hq2, hq3⟩
      · rw [hr] at h
        exact absurd h (by simp)

/-- The record check skips over a prefix of intact items. -/
theorem checkEntries_ok_prefix (fs : List (String × List Nat)) :
    ∀ (pre l : List (String × String)), (∀ x ∈ pre, entryOk fs x) →
      checkEntries fs (pre ++ l) = checkEntries fs l := by
  intro pre
  induction pre with
  | nil =>
    intro l _
    rfl
  | cons e pre ih =>
    intro l hok
    obtain ⟨p, ph⟩ := e
    have he : entryOk fs (p, ph) := hok _ (by simp)
    unfold entryOk at he
    rcases hb : lookupA fs p with _ | bytes
    · rw [hb] at he
      exact absurd he (by simp)
    · rw [hb] at he
      simp at he
      have hstep : checkEntries fs (((p, ph) :: pre) ++ l) = checkEntries fs (pre ++ l) := by
        simp [checkEntries, hb, he]
      rw [hstep]
      exact ih l (fun x hx => hok x (by simp [hx]))

/-- A record made only of intact items checks out (falls through). -/
theorem checkEntries_none_of (fs : List (String × List Nat))
    (l : List (String × String)) (hok : ∀ x ∈ l, entryOk fs x) :
    checkEntries fs l = none := by
  have h := checkEntries_ok_prefix fs l [] hok
  simpa using h

/-- When the loaded record is valid and every recorded item is intact, the
evaluator reports `MATCH`. -/
theorem prev_match_of_ok (st : Sys) (cd : String) (r : Runnable) (info : RunInfo)
    (hrec : lookupA st.cache (get_runnable_run_info_file cd r.name) =
      some (CacheEntry.valid info))
    (hok : ∀ e ∈ info.inputs ++ info.outputs, entryOk st.fs e) :
    previous_run_info_matches st cd r = Except.ok RunInfoStatus.MATCH := by
  simp [previous_run_info_matches, hrec, checkEntries_none_of st.fs _ hok]

/-- A `MATCH` decision makes `execute` take the skip branch. -/
theorem execute_skip (st : Sys) (cd : String) (r : Runnable)
    (h : previous_run_info_matches st cd r = Except.ok RunInfoStatus.MATCH) :
    execute st cd r = Except.ok (st, 0, [Event.skipped r.name]) := by
  simp [execute, h, RunInfoStatus.should_run]

/-- A successful `store_run_info` is exactly the wholesale write of the two
freshly hashed path lists at the record's path. -/
theorem store_spec (st : Sys) (cd : String) (r : Runnable) (st' : Sys)
    (h : store_run_info st cd r = .ok st') :
    ∃ ins outs : List (String × String),
      hashPaths st.fs r.inputs = .ok ins ∧
      hashPaths st.fs r.outputs = .ok outs ∧
      st' = { st with
              cache := setAssoc st.cache (get_runnable_run_info_file cd r.name)
                         (CacheEntry.valid ⟨ins, outs⟩) } := by
  unfold store_run_info at h
  rcases hi : hashPaths st.fs r.inputs with e | ins
  · rw [hi] at h
    exact absurd h (by simp)
  · rw [hi] at h
    rcases ho : hashPaths st.fs r.outputs with e | outs
    · rw [ho] at h
      exact absurd h (by simp)
    · rw [ho] at h
      simp only [Except.ok.injEq] at h
      exact ⟨ins, outs, rfl, rfl, h.symm⟩

end Bootstrap

namespace Bootstrap

/-- C1: the match evaluator returns `NO_INFO` when no run record is
persisted for the unit's name; otherwise it iterates the recorded items,
inputs before outputs, returning `FILE_NOT_FOUND` at the first recorded
path missing from disk, `FILE_CHANGED` at the first existing recorded path
whose recomputed hash differs from the recorded one, `MATCH` when every
recorded item is intact, and `MATCH` is the only decision whose
`should_run` flag is false. -/
theorem match_evaluator_decision (st : Sys) (cd : String) (r : Runnable) :
    (lookupA st.cache (get_runnable_run_info_file cd r.name) = none →
       previous_run_info_matches st cd r = Except.ok RunInfoStatus.NO_INFO) ∧
    (∀ info : RunInfo,
       lookupA st.cache (get_runnable_run_info_file cd r.name) =
         some (CacheEntry.valid info) →
       ((∀ e ∈ info.inputs ++ info.outputs, entryOk st.fs e) →
          previous_run_info_matches st cd r = Except.ok RunInfoStatus.MATCH) ∧
       (∀ pre e post, info.inputs ++ info.outputs = pre ++ e :: post →
          (∀ x ∈ pre, entryOk st.fs x) →
          ((lookupA st.fs e.1 = none →
              previous_run_info_matches st cd r = Except.ok RunInfoStatus.FILE_NOT_FOUND) ∧
           (∀ b, lookupA st.fs e.1 = some b → sha256hex b ≠ e.2 →
              previous_run_info_matches st cd r = Except.ok RunInfoStatus.FILE_CHANGED)))) ∧
    (∀ s : RunInfoStatus, s.should_run = false ↔ s = RunInfoStatus.MATCH) := by
  refine ⟨?_, ?_, ?_⟩
  · intro h
    simp [previous_run_info_matches, h]
  · intro info hrec
    constructor
    · intro hok
      exact prev_match_of_ok st cd r info hrec hok
    · intro pre e post hsplit hok
      constructor
      · intro hmiss
        have hce : checkEntries st.fs (info.inputs ++ info.outputs) =
            some RunInfoStatus.FILE_NOT_FOUND := by
          rw [hsplit, checkEntries_ok_prefix st.fs pre _ hok]
          obtain ⟨p, ph⟩ := e
          simp only at hmiss
          simp [checkEntries, hmiss]
        simp [previous_run_info_matches, hrec, hce]
      · intro b hb hne
        have hce : checkEntries st.fs (info.inputs ++ info.outputs) =
            some RunInfoStatus.FILE_CHANGED := by
          rw [hsplit, checkEntries_ok_prefix st.fs pre _ hok]
          obtain ⟨p, ph⟩ := e
          simp only at hb hne
          simp [checkEntries, hb, hne]
        simp [previous_run_info_matches, hrec, hce]
  · intro s
    cases s <;> simp [RunInfoStatus.should_run]

/-- C1 witness: on a world holding an intact record for "unit", the
evaluator concretely reports `MATCH`. -/
theorem match_evaluator_decision_witness :
    previous_run_info_matches sampleSys "cache" sampleRun =
      Except.ok RunInfoStatus.MATCH :=
  ((match_evaluator_decision sampleSys "cache" sampleRun).2.1 sampleInfo (by rfl)).1
    (by decide)

/-- C2: whenever the decision says should-run, `execute` invokes the action
exactly once (one `ranAction` event), then persists the fresh record, and
returns the action's exit code unchanged — also when that code is
non-zero. -/
theorem execute_runs_and_saves (st : Sys) (cd : String) (r : Runnable)
    (s : RunInfoStatus) (hs : previous_run_info_matches st cd r = Except.ok s)
    (hrun : s.should_run = true) (st2 : Sys)
    (hstore : store_run_info { st with fs := (r.run st.fs).1 } cd r = Except.ok st2) :
    execute st cd r =
      Except.ok (st2, (r.run st.fs).2,
        [Event.ranAction r.name (r.run st.fs).2, Event.savedRecord r.name]) := by
  simp [execute, hs, hrun, hstore]

/-- C2 witness: on a fresh world the sample runnable runs, its record is
persisted, and its non-zero exit code 7 is returned unchanged. -/
theorem execute_runs_and_saves_witness :
    execute sampleSysFresh "cache" sampleRun =
      Except.ok (sampleSys, 7, [Event.ranAction "unit" 7, Event.savedRecord "unit"]) :=
  execute_runs_and_saves sampleSysFresh "cache" sampleRun RunInfoStatus.NO_INFO
    (by rfl) (by rfl) sampleSys (by rfl)

/-- C3: the evaluator compares against the previously recorded path set,
not the currently declared lists: for a unit whose declared inputs changed
while every recorded item is intact, it still reports `MATCH` and `execute`
skips the action. -/
theorem stale_record_still_matches (st : Sys) (cd : String) (r : Runnable)
    (info : RunInfo)
    (hrec : lookupA st.cache (get_runnable_run_info_file cd r.name) =
      some (CacheEntry.valid info))
    (hok : ∀ e ∈ info.inputs ++ info.outputs, entryOk st.fs e)
    (_hchanged : r.inputs ≠ info.inputs.map Prod.fst) :
    previous_run_info_matches st cd r = Except.ok RunInfoStatus.MATCH ∧
    execute st cd r = Except.ok (st, 0, [Event.skipped r.name]) := by
  have hm := prev_match_of_ok st cd r info hrec hok
  exact ⟨hm, execute_skip st cd r hm⟩

/-- C3 witness: the grown runnable declares a new input `c.txt` that was
never recorded (and does not even exist), yet its old record still matches
and the action is skipped. -/
theorem stale_record_still_matches_witness :
    previous_run_info_matches sampleSys "cache" sampleRunGrown =
      Except.ok RunInfoStatus.MATCH ∧
    execute sampleSys "cache" sampleRunGrown =
      Except.ok (sampleSys, 0, [Event.skipped "unit"]) :=
  stale_record_still_matches sampleSys "cache" sampleRunGrown sampleInfo (by rfl)
    (by decide) (by decide)

/-- C4: a `MATCH` decision makes `execute` return the fixed success code 0
without invoking the action (the trace holds only the skip event). -/
theorem execute_match_returns_zero (st : Sys) (cd : String) (r : Runnable)
    (h : previous_run_info_matches st cd r = Except.ok RunInfoStatus.MATCH) :
    execute st cd r = Except.ok (st, 0, [Event.skipped r.name]) ∧
    ∀ code : Int, Event.ranAction r.name code ∉ [Event.skipped r.name] := by
  refine ⟨execute_skip st cd r h, ?_⟩
  intro code
  simp

/-- C4 witness: on the already-recorded world, `execute` concretely skips
and returns 0. -/
theorem execute_match_returns_zero_witness :
    execute sampleSys "cache" sampleRun =
      Except.ok (sampleSys, 0, [Event.skipped "unit"]) ∧
    ∀ code : Int, Event.ranAction "unit" code ∉ [Event.skipped "unit"] :=
  execute_match_returns_zero sampleSys "cache" sampleRun (by rfl)

/-- C5: a successful `store_run_info` hashes every currently declared input
and output against the current files and writes them as one `RunInfo`
record (the two-key map) at `cache_dir/<name>.deps.json`, fully replacing
any prior record for that name, leaving every other persisted record and
the content files untouched. -/
theorem store_run_info_spec (st : Sys) (cd : String) (r : Runnable) (st' : Sys)
    (h : store_run_info st cd r = Except.ok st') :
    get_runnable_run_info_file cd r.name = cd ++ "/" ++ r.name ++ ".deps.json" ∧
    ∃ ins outs : List (String × String),
      hashPaths st.fs r.inputs = Except.ok ins ∧
      hashPaths st.fs r.outputs = Except.ok outs ∧
      st' = { st with
              cache := setAssoc st.cache (get_runnable_run_info_file cd r.name)
                         (CacheEntry.valid ⟨ins, outs⟩) } ∧
      ins.map Prod.fst = r.inputs ∧
      outs.map Prod.fst = r.outputs ∧
      (∀ e ∈ ins ++ outs, entryOk st.fs e) ∧
      lookupA st'.cache (get_runnable_run_info_file cd r.name) =
        some (CacheEntry.valid ⟨ins, outs⟩) ∧
      (∀ k, k ≠ get_runnable_run_info_file cd r.name →
        lookupA st'.cache k = lookupA st.cache k) ∧
      st'.fs = st.fs := by
  obtain ⟨ins, outs, hi, ho, hst⟩ := store_spec st cd r st' h
  obtain ⟨hi1, hi2⟩ := hashPaths_ok st.fs r.inputs ins hi
  obtain ⟨ho1, ho2⟩ := hashPaths_ok st.fs r.outputs outs ho
  refine ⟨rfl, ins, outs, hi, ho, hst, hi1, ho1, ?_, ?_, ?_, ?_⟩
  · intro e he
    rcases List.mem_append.mp he with he | he
    · exact hi2 e he
    · exact ho2 e he
  · rw [hst]
    exact lookupA_setAssoc_self st.cache _ _
  · intro k hk
    rw [hst]
    exact lookupA_setAssoc_ne st.cache _ k _ hk
  · rw [hst]

/-- C5 witness: storing the sample runnable's record on the fresh world
concretely yields the recorded world, with the record readable back at the
deterministic path. -/
theorem store_run_info_spec_witness :
    get_runnable_run_info_file "cache" "unit" =
      "cache" ++ "/" ++ "unit" ++ ".deps.json" ∧
    ∃ ins outs : List (String × String),
      hashPaths sampleFs ["a.txt"] = Except.ok ins ∧
      hashPaths sampleFs ["b.txt"] = Except.ok outs ∧
      sampleSys = { sampleSysFresh with
              cache := setAssoc sampleSysFresh.cache
                         (get_runnable_run_info_file "cache" "unit")
                         (CacheEntry.valid ⟨ins, outs⟩) } ∧
      ins.map Prod.fst = ["a.txt"] ∧
      outs.map Prod.fst = ["b.txt"] ∧
      (∀ e ∈ ins ++ outs, entryOk sampleFs e) ∧
      lookupA sampleSys.cache (get_runnable_run_info_file "cache" "unit") =
        some (CacheEntry.valid ⟨ins, outs⟩) ∧
      (∀ k, k ≠ get_runnable_run_info_file "cache" "unit" →
        lookupA sampleSys.cache k = lookupA sampleSysFresh.cache k) ∧
      sampleSys.fs = sampleSysFresh.fs :=
  store_run_info_spec sampleSysFresh "cache" sampleRun sampleSys (by rfl)

end Bootstrap

namespace Bootstrap

/-- C6: idempotence under an unchanged filesystem — whatever branch a
successful `execute` call took, the state it returns is a fixed point: the
next `execute` call (and hence every further one) takes the skip branch
and returns 0. -/
theorem execute_idempotent (st : Sys) (cd : String) (r : Runnable) (st1 : Sys)
    (c : Int) (tr : List Event)
    (h : execute st cd r = Except.ok (st1, c, tr)) :
    execute st1 cd r = Except.ok (st1, 0, [Event.skipped r.name]) := by
  rcases hp : previous_run_info_matches st cd r with e | s
  · simp [execute, hp] at h
  · by_cases hr : s.should_run
    · rcases hst : store_run_info { st with fs := (r.run st.fs).1 } cd r with e | st2
      · simp [execute, hp, hr, hst] at h
      · simp [execute, hp, hr, hst] at h
        obtain ⟨h1, h2, h3⟩ := h
        obtain ⟨ins, outs, hi, ho, hs2⟩ := store_spec _ cd r st2 hst
        obtain ⟨hi1, hi2⟩ := hashPaths_ok _ r.inputs ins hi
        obtain ⟨ho1, ho2⟩ := hashPaths_ok _ r.outputs outs ho
        have hrec : lookupA st1.cache (get_runnable_run_info_file cd r.name) =
            some (CacheEntry.valid ⟨ins, outs⟩) := by
          rw [← h1, hs2]
          exact lookupA_setAssoc_self _ _ _
        have hfs : st1.fs = (r.run st.fs).1 := by
          rw [← h1, hs2]
        have hok : ∀ e ∈ ins ++ outs, entryOk st1.fs e := by
          rw [hfs]
          intro e he
          rcases List.mem_append.mp he with he | he
          · exact hi2 e he
          · exact ho2 e he
        exact execute_skip st1 cd r (prev_match_of_ok st1 cd r ⟨ins, outs⟩ hrec hok)
    · have hsM : s = RunInfoStatus.MATCH := by
        cases s <;> simp_all [RunInfoStatus.should_run]
      subst hsM
      simp [execute, hp, RunInfoStatus.should_run] at h
      obtain ⟨h1, h2, h3⟩ := h
      rw [← h1]
      exact execute_skip st cd r hp

/-- C6 witness: running the sample unit on the fresh world, then calling
`execute` again on the state it returned, concretely skips. -/
theorem execute_idempotent_witness :
    execute sampleSys "cache" sampleRun =
      Except.ok (sampleSys, 0, [Event.skipped "unit"]) :=
  execute_idempotent sampleSysFresh "cache" sampleRun sampleSys 7
    [Event.ranAction "unit" 7, Event.savedRecord "unit"] (by rfl)

/-- C7: on the skip path nothing is written — an `execute` call whose
decision is `MATCH` returns the state unchanged, emits no record-save
event, and leaves every persisted record readable exactly as before. -/
theorem execute_skip_frame (st : Sys) (cd : String) (r : Runnable)
    (h : previous_run_info_matches st cd r = Except.ok RunInfoStatus.MATCH)
    (st' : Sys) (c : Int) (tr : List Event)
    (hex : execute st cd r = Except.ok (st', c, tr)) :
    st' = st ∧ Event.savedRecord r.name ∉ tr ∧
    ∀ k, lookupA st'.cache k = lookupA st.cache k := by
  have he := execute_skip st cd r h
  rw [he] at hex
  simp only [Except.ok.injEq, Prod.mk.injEq] at hex
  obtain ⟨h1, h2, h3⟩ := hex
  subst h1
  subst h3
  exact ⟨rfl, by simp, fun k => rfl⟩

/-- C7 witness: a concrete skipping call leaves the recorded world intact. -/
theorem execute_skip_frame_witness :
    sampleSys = sampleSys ∧
    Event.savedRecord "unit" ∉ [Event.skipped "unit"] ∧
    ∀ k, lookupA sampleSys.cache k = lookupA sampleSys.cache k :=
  execute_skip_frame sampleSys "cache" sampleRun (by rfl) sampleSys 0
    [Event.skipped "unit"] (by rfl)

/-- C8: every error is terminal and surfaces to the caller — a corrupt
stored record propagates out of `execute` as an exception, a failing save
pass propagates out of `execute` as an exception, an unreadable file makes
the hasher raise a file-access error, and a failing hashing pass always
fails with a file-access error on one of the requested (unreadable) paths.
The action's exit code (C2) is the only failure returned as a value. -/
theorem errors_are_terminal (st : Sys) (cd : String) (r : Runnable) :
    (lookupA st.cache (get_runnable_run_info_file cd r.name) =
        some CacheEntry.corrupt →
      execute st cd r =
        Except.error (Err.corruptRecord (get_runnable_run_info_file cd r.name))) ∧
    (∀ s, previous_run_info_matches st cd r = Except.ok s → s.should_run = true →
      ∀ e, store_run_info { st with fs := (r.run st.fs).1 } cd r = Except.error e →
        execute st cd r = Except.error e) ∧
    (∀ p, lookupA st.fs p = none →
      get_file_hash st.fs p = Except.error (Err.fileAccess p)) ∧
    (∀ ps e, hashPaths st.fs ps = Except.error e →
      ∃ p, p ∈ ps ∧ e = Err.fileAccess p ∧ lookupA st.fs p = none) := by
  refine ⟨?_, ?_, ?_, ?_⟩
  · intro h
    simp [execute, previous_run_info_matches, h]
  · intro s hs hrun e hst
    simp [execute, hs, hrun, hst]
  · intro p h
    simp [get_file_hash, h]
  · exact hashPaths_error st.fs

/-- C8 witness: on the world with an unparsable record, `execute` concretely
aborts with the corrupt-record exception. -/
theorem errors_are_terminal_witness :
    execute sampleSysCorrupt "cache" sampleRun =
      Except.error (Err.corruptRecord (get_runnable_run_info_file "cache" "unit")) :=
  (errors_are_terminal sampleSysCorrupt "cache" sampleRun).1 (by rfl)

/-- C9: the hasher is a pure function of file contents — two reads that see
equal bytes (whatever the path or surrounding filesystem) produce the same
digest, namely the SHA-256 hex digest of those bytes, which always has 64
hex characters (256 bits). -/
theorem hash_pure_function (fs1 fs2 : List (String × List Nat)) (p1 p2 : String)
    (b : List Nat) (h1 : lookupA fs1 p1 = some b) (h2 : lookupA fs2 p2 = some b) :
    get_file_hash fs1 p1 = get_file_hash fs2 p2 ∧
    get_file_hash fs1 p1 = Except.ok (sha256hex b) ∧
    (sha256hex b).length = 64 := by
  refine ⟨?_, ?_, sha256hex_length b⟩
  · simp [get_file_hash, h1, h2]
  · simp [get_file_hash, h1]

/-- C9 witness: two files with equal contents on unrelated filesystems and
paths concretely hash alike. -/
theorem hash_pure_function_witness :
    get_file_hash sampleFs "a.txt" = get_file_hash sampleFsOther "z.txt" ∧
    get_file_hash sampleFs "a.txt" = Except.ok (sha256hex [49]) ∧
    (sha256hex [49]).length = 64 :=
  hash_pure_function sampleFs sampleFsOther "a.txt" "z.txt" [49] (by rfl) (by rfl)

end Bootstrap

namespace TestLists

/-- The max-loop step never decreases the accumulator. -/
theorem maxStep_left (b n : Int) : b ≤ maxStep b n := by
  unfold maxStep
  split <;> omega

/-- The max-loop step dominates the element it consumed. -/
theorem maxStep_right (b n : Int) : n ≤ maxStep b n := by
  unfold maxStep
  split <;> omega

/-- The max-loop step returns one of its two arguments. -/
theorem maxStep_cases (b n : Int) : maxStep b n = b ∨ maxStep b n = n := by
  unfold maxStep
  split <;> simp

/-- The min-loop step never increases the accumulator. -/
theorem minStep_left (b n : Int) : minStep b n ≤ b := by
  unfold minStep
  split <;> omega

/-- The min-loop step is below the element it consumed. -/
theorem minStep_right (b n : Int) : minStep b n ≤ n := by
  unfold minStep
  split <;> omega

/-- The min-loop step returns one of its two arguments. -/
theorem minStep_cases (b n : Int) : minStep b n = b ∨ minStep b n = n := by
  unfold minStep
  split <;> simp

/-- Folding the max loop yields the initial value or a list element, never
below the initial value, and dominating every list element. -/
theorem foldl_maxStep_spec (l : List Int) : ∀ b : Int,
    (l.foldl maxStep b = b ∨ l.foldl maxStep b ∈ l) ∧
    b ≤ l.foldl maxStep b ∧ ∀ x ∈ l, x ≤ l.foldl maxStep b := by
  induction l with
  | nil =>
    intro b
    simp
  | cons y ys ih =>
    intro b
    obtain ⟨ih1, ih2, ih3⟩ := ih (maxStep b y)
    simp only [List.foldl_cons]
    refine ⟨?_, le_trans (maxStep_left b y) ih2, ?_⟩
    · rcases ih1 with h | h
      · rw [h]
        rcases maxStep_cases b y with h' | h'
        · left
          exact h'
        · right
          rw [h']
          simp
      · right
        simp [h]
    · intro x hx
      rcases List.mem_cons.mp hx with hx | hx
      · subst hx
        exact le_trans (maxStep_right b x) ih2
      · exact ih3 x hx

/-- Folding the min loop yields the initial value or a list element, never
above the initial value, and below every list element. -/
theorem foldl_minStep_spec (l : List Int) : ∀ b : Int,
    (l.foldl minStep b = b ∨ l.foldl minStep b ∈ l) ∧
    l.foldl minStep b ≤ b ∧ ∀ x ∈ l, l.foldl minStep b ≤ x := by
  induction l with
  | nil =>
    intro b
    simp
  | cons y ys ih =>
    intro b
    obtain ⟨ih1, ih2, ih3⟩ := ih (minStep b y)
    simp only [List.foldl_cons]
    refine ⟨?_, le_trans ih2 (minStep_left b y), ?_⟩
    · rcases ih1 with h | h
      · rw [h]
        rcases minStep_cases b y with h' | h'
        · left
          exact h'
        · right
          rw [h']
          simp
      · right
        simp [h]
    · intro x hx
      rcases List.mem_cons.mp hx with hx | hx
      · subst hx
        exact le_trans ih2 (minStep_right b x)
      · exact ih3 x hx

/-- The sum loop of `calculate_average` computes the list sum. -/
theorem foldl_add_sum (l : List Int) : ∀ s : Int,
    l.foldl (fun acc n => acc + n) s = s + l.sum := by
  induction l with
  | nil =>
    intro s
    simp
  | cons y ys ih =>
    intro s
    simp only [List.foldl_cons, List.sum_cons, ih]
    ring

/-- The count loop of `calculate_average` computes the list length. -/
theorem foldl_count_length (l : List Int) : ∀ k : Nat,
    l.foldl (fun acc _ => acc + 1) k = k + l.length := by
  induction l with
  | nil =>
    intro k
    simp
  | cons y ys ih =>
    intro k
    simp only [List.foldl_cons, List.length_cons, ih]
    omega

/-- C10: the three toy list functions fail (read `numbers[0]`, or divide by
the element count) on the empty list, and on every non-empty list of
integers they return the maximum element, the minimum element, and the
exact rational mean respectively. -/
theorem list_functions_undefined_on_empty :
    calculate_max [] = none ∧ calculate_min [] = none ∧
    calculate_average [] = none ∧
    (∀ l : List Int, l ≠ [] →
      ∃ m, calculate_max l = some m ∧ m ∈ l ∧ ∀ x ∈ l, x ≤ m) ∧
    (∀ l : List Int, l ≠ [] →
      ∃ m, calculate_min l = some m ∧ m ∈ l ∧ ∀ x ∈ l, m ≤ x) ∧
    (∀ l : List Int, l ≠ [] →
      calculate_average l = some ((l.sum : Rat) / (l.length : Rat))) := by
  refine ⟨rfl, rfl, rfl, ?_, ?_, ?_⟩
  · intro l hl
    rcases l with _ | ⟨b, rest⟩
    · exact absurd rfl hl
    · obtain ⟨h1, _, h3⟩ := foldl_maxStep_spec (b :: rest) b
      refine ⟨(b :: rest).foldl maxStep b, rfl, ?_, h3⟩
      rcases h1 with h | h
      · rw [h]
        simp
      · exact h
  · intro l hl
    rcases l with _ | ⟨b, rest⟩
    · exact absurd rfl hl
    · obtain ⟨h1, _, h3⟩ := foldl_minStep_spec (b :: rest) b
      refine ⟨(b :: rest).foldl minStep b, rfl, ?_, h3⟩
      rcases h1 with h | h
      · rw [h]
        simp
      · exact h
  · intro l hl
    have hk : l.foldl (fun acc _ => acc + 1) 0 = l.length := by
      simpa using foldl_count_length l 0
    have hs : l.foldl (fun acc n => acc + n) 0 = l.sum := by
      simpa using foldl_add_sum l 0
    have hlen : l.length ≠ 0 := by
      simpa using hl
    simp only [calculate_average]
    rw [hk, hs, if_neg hlen]

/-- C10 witness: the test inputs of `test_lists.py` concretely produce
their maximum, minimum and exact mean. -/
theorem list_functions_undefined_on_empty_witness :
    (∃ m, calculate_max [5, 12, 1, 0] = some m ∧ m ∈ [5, 12, 1, 0] ∧
      ∀ x ∈ [5, 12, 1, 0], x ≤ m) ∧
    (∃ m, calculate_min [5, 12, 1] = some m ∧ m ∈ [5, 12, 1] ∧
      ∀ x ∈ [5, 12, 1], m ≤ x) ∧
    calculate_average [2, 3, 4] =
      some ((([2, 3, 4] : List Int).sum : Rat) / (([2, 3, 4] : List Int).length : Rat)) :=
  ⟨list_functions_undefined_on_empty.2.2.2.1 [5, 12, 1, 0] (by decide),
   list_functions_undefined_on_empty.2.2.2.2.1 [5, 12, 1] (by decide),
   list_functions_undefined_on_empty.2.2.2.2.2 [2, 3, 4] (by decide)⟩

end TestLists
